import Mathlib

set_option maxRecDepth 100000

/-!
# Verification of `mbp-audio` (`audio_processing_streamlit.py`)

Shallow embedding of the audio-processing core of the repository and proofs
about it. Modelling conventions, used throughout:

* A decoded waveform (`pydub.AudioSegment`) is modelled at 1 ms resolution:
  `Audio := List Sample`, where a `Sample` is the loudness of that
  millisecond frame in dBFS.  `none` stands for digital silence
  (amplitude 0, dBFS = minus infinity); `some v` is a frame at `v` dBFS.
  Concatenation of segments is list append, `len(seg)` is `List.length`,
  `AudioSegment.silent(d)` is `d` frames of `none`, Python slicing
  `seg[a:b]` (with `0 ≤ a`, `b ≤ len`) is `pySliceNat`.
* Gain (`apply_gain`) adds the gain to every frame's dBFS level; silence
  stays silence.  `max_dBFS` is the maximum frame level (`none` on pure
  silence, where pydub reports minus infinity).
* Decoding and mp3 encoding at the fixed bitrate are external codec calls;
  they are modelled as the identity on the in-memory waveform, so an
  uploaded file is a name together with its decoded `Audio`.
* `pydub.silence.detect_nonsilent` and `split_on_silence` are library code
  that is not part of this repository.  `detectNonsilent` follows the
  spec's Silence Analyzer contract (a frame is silent when its level is
  below the threshold and it lies in a maximal silent run of at least
  `min_silence_len` contiguous milliseconds; the non-silent spans are the
  complementary intervals, in chronological order), which also matches the
  documented behaviour of the pydub functions the source calls.
  `splitOnSilence` keeps, as pydub documents for `keep_silence`, up to
  `keep_silence` ms of the neighbouring silence on each side of a span
  (clamped at the waveform bounds, with overlapping extensions split at
  their midpoint).
-/

namespace MBPAudio

/-- Loudness of one millisecond frame, in dBFS; `none` is digital silence. -/
abbrev Sample : Type := Option ℚ

/-- A decoded waveform at 1 ms resolution. -/
abbrev Audio : Type := List Sample

/-- `AudioSegment.silent(duration=d)`: `d` ms of digital silence. -/
def pySilent (d : Nat) : Audio := List.replicate d none

/-- Python slice `s[a:b]` for `0 ≤ a` and `b ≤ len(s)` (both already clamped). -/
def pySliceNat {α : Type} (s : List α) (a b : Nat) : List α := (s.take b).drop a

/-- `seg.apply_gain(g)`: add `g` dB to every frame; silence stays silence. -/
def applyGain (g : ℚ) (s : Audio) : Audio := s.map (fun x => x.map (fun v => v + g))

/-- Maximum of two frame levels (`none` = minus infinity). -/
def sampleMax : Sample → Sample → Sample
  | none, y => y
  | some v, none => some v
  | some v, some w => some (max v w)

/-- `seg.max_dBFS`: the peak frame level; `none` when every frame is silent
(pydub reports minus infinity there). -/
def peakDBFS (s : Audio) : Sample := s.foldr sampleMax none

/-- An uploaded / in-memory audio file: a display name and its decoded
waveform (`InMemoryFile` in the source; decode is the identity here). -/
structure AudioFile where
  name : String
  data : Audio

/-- Numeric value of a list of decimal digit characters (`int` on the match). -/
def digitsVal (cs : List Char) : Nat := cs.foldl (fun n c => 10 * n + (c.toNat - 48)) 0

/-- Value of the first maximal run of digits in a character list, as found by
`re.search(r"(\d+)", name)`; `none` when the name contains no digit. -/
def firstDigitRun : List Char → Option Nat
  | [] => none
  | c :: rest =>
    if c.isDigit then some (digitsVal (c :: rest.takeWhile Char.isDigit))
    else firstDigitRun rest

/-- Sort key of `join_audio` (source lines 55-57): first embedded integer of
the file name, `none` playing the role of `float('inf')`. -/
def joinKey (f : AudioFile) : Option Nat := firstDigitRun f.name.toList

/-- Sort key of `generate_anki_csv` (source lines 109-111); textually the same
closure as `joinKey`. -/
def ankiKey (f : AudioFile) : Option Nat := firstDigitRun f.name.toList

/-- Strict comparison of sort keys: `none` is `float('inf')`, larger than
every number and not less than itself. -/
def keyLT : Option Nat → Option Nat → Bool
  | some a, some b => decide (a < b)
  | some _, none => true
  | none, _ => false

/-- Non-strict key comparison, the order `sorted` leaves the list in. -/
def keyLE (a b : Option Nat) : Bool := !(keyLT b a)

/-- One insertion step of a stable sort: `x` goes after every element whose
key is strictly smaller, and before the first element whose key is not,
hence after all earlier elements of equal key. -/
def pyInsertSorted {α : Type} (key : α → Option Nat) (x : α) : List α → List α
  | [] => [x]
  | y :: ys => if keyLT (key y) (key x) then y :: pyInsertSorted key x ys else x :: y :: ys

/-- Python's `sorted(files, key=key)`: a stable sort by the extracted key
(CPython's sort is specified to be stable, so any stable by-key sort is
extensionally the same function). -/
def pySortedByKey {α : Type} (key : α → Option Nat) (l : List α) : List α :=
  l.foldr (pyInsertSorted key) []

/-! ## Silence analysis

Modelled from the spec: the Silence Analyzer (`pydub.silence.detect_nonsilent`,
library code not in this repository) treats a frame as silent when its level
is below the threshold and the frame lies in a maximal contiguous silent run
of at least `min_silence_len` ms; the non-silent spans are the complementary
maximal intervals, in chronological order. -/

/-- A frame counts as non-silent when its level is not below the threshold
(digital silence is below every threshold). -/
def sampleLoud (thresh : ℚ) : Sample → Bool
  | none => false
  | some v => decide (thresh ≤ v)

/-- Per-frame loudness mask of a waveform. -/
def loudMask (thresh : ℚ) (s : Audio) : List Bool := s.map (sampleLoud thresh)

/-- Run-length encoding worker: `b` is the value of the current run, `n` its
length so far. -/
def rleGo (b : Bool) (n : Nat) : List Bool → List (Bool × Nat)
  | [] => [(b, n)]
  | c :: rest => if c = b then rleGo b (n + 1) rest else (b, n) :: rleGo c 1 rest

/-- Run-length encoding of a boolean mask (maximal runs, positive lengths). -/
def rle : List Bool → List (Bool × Nat)
  | [] => []
  | b :: rest => rleGo b 1 rest

/-- Walk the runs accumulating non-silent spans.  `pos` is the absolute
position of the next run; `openS` is the start of the currently open span, if
any.  A loud run, or a silent run shorter than `minLen`, continues (or opens)
a span; a silent run of at least `minLen` closes the open span. -/
def spansGo (minLen : Nat) : Nat → Option Nat → List (Bool × Nat) → List (Nat × Nat)
  | pos, openS, [] =>
    match openS with
    | some st => [(st, pos)]
    | none => []
  | pos, openS, (b, n) :: rs =>
    if b then spansGo minLen (pos + n) (some (openS.getD pos)) rs
    else if minLen ≤ n then
      (match openS with
       | some st => [(st, pos)]
       | none => []) ++ spansGo minLen (pos + n) none rs
    else spansGo minLen (pos + n) (some (openS.getD pos)) rs

/-- `detect_nonsilent(s, min_silence_len, silence_thresh)`: chronological list
of maximal non-silent spans `(start_ms, end_ms)`. -/
def detectNonsilent (minLen : Nat) (thresh : ℚ) (s : Audio) : List (Nat × Nat) :=
  spansGo minLen 0 none (rle (loudMask thresh s))

/-- Trimming step of `join_audio` (source lines 64-68): detect non-silent
spans with the loose thresholds (25 ms, -40 dBFS); if none, keep the waveform;
otherwise clip to first start minus 100 ms and last end plus 100 ms, clamped
to the waveform (`max(0, ...)` is truncated subtraction, `min(len(sound), ...)`
is `min`). -/
def trimSeg (s : Audio) : Audio :=
  match detectNonsilent 25 (-40) s with
  | [] => s
  | p :: rest =>
    let lastSpan := (p :: rest).getLastD (0, 0)
    pySliceNat s (p.1 - 100) (min s.length (lastSpan.2 + 100))

/-! ## Composer (`join_audio`, source lines 54-83) -/

/-- The two concatenation policies of the Composer. -/
inductive Mode : Type
  | SAI : Mode
  | LAR : Mode

/-- Silence filler appended after a trimmed chunk (source line 75): fixed
1000 ms in mode SAI, twice the trimmed chunk's duration in mode LAR. -/
def fillerFor (mode : Mode) (seg : Audio) : Audio :=
  match mode with
  | .SAI => pySilent 1000
  | .LAR => pySilent (2 * seg.length)

/-- The concatenation built by the two loops of `join_audio`: sort the files
numerically, trim each decoded chunk, then append chunk-plus-filler in order
starting from the empty segment (the filler follows the final chunk too). -/
def joinCombined (files : List AudioFile) (mode : Mode) : Audio :=
  let sortedFiles := pySortedByKey joinKey files
  let segments := sortedFiles.map (fun f => trimSeg f.data)
  segments.foldl (fun acc seg => acc ++ seg ++ fillerFor mode seg) []

/-- `join_audio` (source lines 54-83): in mode SAI a single global gain of
`-3 - combined.max_dBFS` is applied at the end; in mode LAR the concatenation
is returned as is.  When every frame of the composition is silent, pydub's
`max_dBFS` is minus infinity and the "gain" leaves silence as silence, which
is how the model renders that branch (the empty composition is the relevant
such case; export at the fixed bitrate is the identity here). -/
def joinAudio (files : List AudioFile) (mode : Mode) : Audio :=
  let combined := joinCombined files mode
  match mode with
  | .SAI =>
    match peakDBFS combined with
    | some p => applyGain (-3 - p) combined
    | none => combined
  | .LAR => combined

/-- Progress percentages emitted by `join_audio` (source lines 70-71 and
76-77) on `total` files: `int(i/total*50)` for each trimmed chunk, then
`50 + int(i/total*50)` for each concatenated chunk.  Python's `int()` of the
float product is floor division here (the product is non-negative). -/
def joinProgress (total : Nat) : List Nat :=
  (List.range total).map (fun j => 50 * (j + 1) / total)
    ++ (List.range total).map (fun j => 50 + 50 * (j + 1) / total)

/-! ## Segmenter (`cut_audio`, source lines 29-51) -/

/-- The pairwise overlap-adjustment loop of `split_on_silence`: `a` is the
current range, possibly already shrunk by the previous step.  Python integer
floor division of `a.2 + b.1` by 2 happens on possibly negative ints, so the
model uses `Int.fdiv` (Python `//` floors). -/
def adjustGo (a : Int × Int) : List (Int × Int) → List (Int × Int)
  | [] => [a]
  | b :: rest =>
    if b.1 < a.2 then
      (a.1, Int.fdiv (a.2 + b.1) 2) :: adjustGo (Int.fdiv (a.2 + b.1) 2, b.2) rest
    else a :: adjustGo b rest

/-- Overlap adjustment over the whole widened-range list. -/
def adjustRanges : List (Int × Int) → List (Int × Int)
  | [] => []
  | a :: rest => adjustGo a rest

/-- `pydub.silence.split_on_silence(s, min_silence_len, silence_thresh,
keep_silence)` (library code, modelled from its documented behaviour): each
detected non-silent span is widened by `keep_silence` ms on each side,
overlapping widenings are split at their midpoint, and each resulting range is
clamped to the waveform and sliced out. -/
def splitOnSilence (minLen : Nat) (thresh : ℚ) (keep : Nat) (s : Audio) : List Audio :=
  (adjustRanges ((detectNonsilent minLen thresh s).map
      (fun p => ((p.1 : Int) - keep, (p.2 : Int) + keep)))).map
    (fun r => pySliceNat s (max r.1 0).toNat (min r.2 (s.length : Int)).toNat)

/-- Python `str.strip()`: drop leading and trailing whitespace. -/
def pyStrip (s : String) : String :=
  ⟨((s.toList.dropWhile Char.isWhitespace).reverse.dropWhile Char.isWhitespace).reverse⟩

/-- A word character in the sense of `re`'s `\w` (ASCII: letter, digit or
underscore). -/
def isWordChar (c : Char) : Bool := c.isAlphanum || c = '_'

/-- `re.sub(r'[^\w]', '', line)`: keep only word characters. -/
def stripNonWord (s : String) : String := ⟨s.toList.filter isWordChar⟩

/-- Display label of chunk `i` (1-based, source line 40): the stripped
transcript line `i-1` when it exists, else the decimal string of `i`. -/
def cutLabel (lines : List String) (i : Nat) : String :=
  if h : i - 1 < lines.length then stripNonWord (pyStrip (lines.get ⟨i - 1, h⟩))
  else toString i

/-- Chunk file name (source line 41): `f"{i}-{label}-{suffix}.mp3"`. -/
def cutName (lines : List String) (suffix : String) (i : Nat) : String :=
  toString i ++ "-" ++ cutLabel lines i ++ "-" ++ suffix ++ ".mp3"

/-- The names assigned to `total` chunks, in order. -/
def cutNames (lines : List String) (suffix : String) (total : Nat) : List String :=
  (List.range total).map (fun j => cutName lines suffix (j + 1))

/-- `cut_audio` (source lines 29-51): split on silence (1000 ms, -50 dBFS,
keep 150 ms), then for chunk `i` emit the name of line 41 and the chunk padded
with 150 ms of silence on each side (line 42-43).  Zip packaging and mp3
export are external and keep entry order. -/
def cutAudio (s : Audio) (lines : List String) (suffix : String) : List (String × Audio) :=
  (splitOnSilence 1000 (-50) 150 s).enum.map
    (fun ic => (cutName lines suffix (ic.1 + 1), pySilent 150 ++ ic.2 ++ pySilent 150))

/-- Progress percentages emitted by `cut_audio` (source lines 48-49):
`int(i/total*100)` after each chunk. -/
def cutProgress (total : Nat) : List Nat :=
  (List.range total).map (fun j => 100 * (j + 1) / total)

/-! ## Row Pairer (`generate_anki_csv`, source lines 106-120) -/

/-- The count-mismatch failure carries both counts (source line 115's
`ValueError(f"Row count (...) != file count (...)")`). -/
structure CountMismatch where
  rowCount : Nat
  fileCount : Nat
  deriving DecidableEq, Repr

/-- `generate_anki_csv` at the row level (tab-separated parsing and
serialisation are external I/O): sort the files numerically, fail atomically
when the counts differ (the check precedes every write), otherwise append one
`[sound:<name>]` field to each row in original row order, row `i` getting the
`i`-th sorted file's name. -/
def generateAnkiCsv (rows : List (List String)) (files : List AudioFile) :
    Except CountMismatch (List (List String)) :=
  if rows.length ≠ (pySortedByKey ankiKey files).length then
    .error ⟨rows.length, (pySortedByKey ankiKey files).length⟩
  else
    .ok ((rows.zip (pySortedByKey ankiKey files)).map
      (fun rf => rf.1 ++ ["[sound:" ++ rf.2.name ++ "]"]))

/-- Progress percentages emitted by `generate_anki_csv` (source line 119),
only reached when the counts match. -/
def ankiProgress (rows files : Nat) : List Nat :=
  if rows ≠ files then [] else (List.range rows).map (fun j => 100 * (j + 1) / rows)

/-! ## Loudness Normalizer (`normalize_audio`, source lines 86-103)

The external effects (temporary files on disk, the ffmpeg invocation, the
decode of its output) are modelled explicitly: the two boolean parameters say
whether the external tool exits zero and whether its output decodes. -/

/-- Observable outcome of one `normalize_audio` call: whether it returned
normally, which of the two temporary interchange files were deleted, and the
progress values emitted. -/
structure NormOutcome where
  returnedOk : Bool
  tmpInDeleted : Bool
  tmpOutDeleted : Bool
  progressValues : List Nat
  deriving DecidableEq, Repr

/-- `normalize_audio` control flow (source lines 86-103): create `tmp_in` and
export to it, report 10; create `tmp_out`, report 20; run the tool
(`subprocess.run(..., check=True)` raises on non-zero exit, and nothing
catches it before the `os.unlink` calls at line 102); decode `tmp_out`
(raises on malformed output); export, report 100; only then unlink both
temporary files. -/
def normalizeAudio (toolOk : Bool) (decodeOk : Bool) : NormOutcome :=
  if toolOk = false then
    { returnedOk := false, tmpInDeleted := false, tmpOutDeleted := false
      progressValues := [10, 20] }
  else if decodeOk = false then
    { returnedOk := false, tmpInDeleted := false, tmpOutDeleted := false
      progressValues := [10, 20, 70] }
  else
    { returnedOk := true, tmpInDeleted := true, tmpOutDeleted := true
      progressValues := [10, 20, 70, 100] }

/-! ## Key-order helper lemmas -/

theorem keyLT_irrefl (a : Option Nat) : keyLT a a = false := by
  cases a <;> simp [keyLT]

theorem keyLE_of_not_keyLT {a b : Option Nat} (h : keyLT a b = false) : keyLE b a = true := by
  simp [keyLE, h]

theorem keyLE_of_keyLT {a b : Option Nat} (h : keyLT a b = true) : keyLE a b = true := by
  cases a <;> cases b <;> simp_all [keyLT, keyLE] <;> omega

theorem keyLT_ne {a b : Option Nat} (h : keyLT a b = true) : a ≠ b := by
  cases a <;> cases b <;> simp_all [keyLT] <;> omega

theorem keyLE_trans {a b c : Option Nat} (h1 : keyLE a b = true) (h2 : keyLE b c = true) :
    keyLE a c = true := by
  cases a <;> cases b <;> cases c <;> simp_all [keyLE, keyLT] <;> omega

/-! ## Stable-sort lemmas -/

theorem pyInsertSorted_perm {α : Type} (key : α → Option Nat) (x : α) :
    ∀ l : List α, (pyInsertSorted key x l).Perm (x :: l)
  | [] => List.Perm.refl _
  | y :: ys => by
    unfold pyInsertSorted
    by_cases h : keyLT (key y) (key x) = true
    · simp only [h, if_pos]
      exact ((pyInsertSorted_perm key x ys).cons y).trans (List.Perm.swap x y ys)
    · simp only [h]
      simp

theorem pySortedByKey_perm {α : Type} (key : α → Option Nat) :
    ∀ l : List α, (pySortedByKey key l).Perm l
  | [] => List.Perm.refl _
  | x :: xs => by
    unfold pySortedByKey
    simp only [List.foldr_cons]
    exact (pyInsertSorted_perm key x _).trans ((pySortedByKey_perm key xs).cons x)

theorem mem_pyInsertSorted {α : Type} (key : α → Option Nat) (x : α) (l : List α) (z : α)
    (hz : z ∈ pyInsertSorted key x l) : z = x ∨ z ∈ l :=
  List.mem_cons.mp ((pyInsertSorted_perm key x l).mem_iff.mp hz)

theorem pyInsertSorted_pairwise {α : Type} (key : α → Option Nat) (x : α) :
    ∀ l : List α, l.Pairwise (fun a b => keyLE (key a) (key b) = true) →
      (pyInsertSorted key x l).Pairwise (fun a b => keyLE (key a) (key b) = true)
  | [], _ => List.pairwise_singleton _ x
  | y :: ys, h => by
    unfold pyInsertSorted
    rcases List.pairwise_cons.mp h with ⟨hy, hys⟩
    by_cases hlt : keyLT (key y) (key x) = true
    · simp only [hlt, if_pos]
      refine List.pairwise_cons.mpr ⟨?_, pyInsertSorted_pairwise key x ys hys⟩
      intro z hz
      rcases mem_pyInsertSorted key x ys z hz with rfl | hmem
      · exact keyLE_of_keyLT hlt
      · exact hy z hmem
    · have hlt' : keyLT (key y) (key x) = false := by
        cases hh : keyLT (key y) (key x)
        · rfl
        · exact absurd hh hlt
      simp only [hlt', if_neg, Bool.false_eq_true, not_false_iff]
      refine List.pairwise_cons.mpr ⟨?_, h⟩
      intro z hz
      rcases List.mem_cons.mp hz with rfl | hmem
      · exact keyLE_of_not_keyLT hlt'
      · exact keyLE_trans (keyLE_of_not_keyLT hlt') (hy z hmem)

theorem pySortedByKey_pairwise {α : Type} (key : α → Option Nat) :
    ∀ l : List α, (pySortedByKey key l).Pairwise (fun a b => keyLE (key a) (key b) = true)
  | [] => List.Pairwise.nil
  | x :: xs => by
    unfold pySortedByKey
    simp only [List.foldr_cons]
    exact pyInsertSorted_pairwise key x _ (pySortedByKey_pairwise key xs)

theorem pyInsertSorted_filter_eq {α : Type} (key : α → Option Nat) (x : α) (k : Option Nat) :
    ∀ l : List α, (pyInsertSorted key x l).filter (fun z => key z == k) =
      (x :: l).filter (fun z => key z == k)
  | [] => rfl
  | y :: ys => by
    unfold pyInsertSorted
    by_cases hlt : keyLT (key y) (key x) = true
    · simp only [hlt, if_pos]
      by_cases hx : key x = k
      · have hyk : (key y == k) = false := by
          have : key y ≠ k := by
            intro hk
            exact keyLT_ne hlt (hk.trans hx.symm)
          simp [this]
        simp only [List.filter_cons, hyk]
        rw [pyInsertSorted_filter_eq key x k ys]
        simp [List.filter_cons, hyk]
      · have hxk : (key x == k) = false := by simp [hx]
        simp only [List.filter_cons, hxk]
        rw [pyInsertSorted_filter_eq key x k ys]
        simp [List.filter_cons, hxk]
    · have hlt' : keyLT (key y) (key x) = false := by
        cases hh : keyLT (key y) (key x)
        · rfl
        · exact absurd hh hlt
      simp [hlt']

theorem pySortedByKey_stable {α : Type} (key : α → Option Nat) (k : Option Nat) :
    ∀ l : List α, (pySortedByKey key l).filter (fun z => key z == k) =
      l.filter (fun z => key z == k)
  | [] => rfl
  | x :: xs => by
    unfold pySortedByKey
    simp only [List.foldr_cons]
    rw [pyInsertSorted_filter_eq key x k]
    simp only [List.filter_cons]
    rw [show List.foldr (pyInsertSorted key) [] xs = pySortedByKey key xs from rfl,
      pySortedByKey_stable key k xs]

/-- C1: both the Composer (`join_audio`) and the Row Pairer
(`generate_anki_csv`) order files by the integer value of the first run of
digits anywhere in the file name; digit-free names sort after all names with
digits (`float('inf')` key); the sort is stable (equal keys keep their
original relative order, stated as: every key class is preserved by the
sort); and `["10-b","2-a","bare"]` sorts to `["2-a","10-b","bare"]`. -/
theorem claim_C1 :
    (∀ f : AudioFile, joinKey f = ankiKey f)
    ∧ pySortedByKey joinKey
        [⟨"10-b", []⟩, ⟨"2-a", []⟩, ⟨"bare", []⟩] =
        ([⟨"2-a", []⟩, ⟨"10-b", []⟩, ⟨"bare", []⟩] : List AudioFile)
    ∧ (∀ l : List AudioFile, (pySortedByKey joinKey l).Perm l)
    ∧ (∀ l : List AudioFile,
        (pySortedByKey joinKey l).Pairwise (fun a b => keyLE (joinKey a) (joinKey b) = true))
    ∧ (∀ (l : List AudioFile) (k : Option Nat),
        (pySortedByKey joinKey l).filter (fun z => joinKey z == k) =
          l.filter (fun z => joinKey z == k)) :=
  ⟨fun _ => rfl, rfl, pySortedByKey_perm joinKey, pySortedByKey_pairwise joinKey,
    fun l k => pySortedByKey_stable joinKey k l⟩

/-! ## Progress helper lemmas -/

theorem pairwise_le_range_map (f : Nat → Nat) (hf : ∀ i j, i ≤ j → f i ≤ f j) (n : Nat) :
    ((List.range n).map f).Pairwise (· ≤ ·) :=
  (List.pairwise_lt_range n).map f (fun i j hij => hf i j (Nat.le_of_lt hij))

theorem div_mul_le_of_lt (c : Nat) {total j : Nat} (hj : j < total) : c * (j + 1) / total ≤ c := by
  have h1 : c * (j + 1) ≤ c * total := Nat.mul_le_mul_left c hj
  calc c * (j + 1) / total ≤ c * total / total := Nat.div_le_div_right h1
    _ = total * c / total := by ring_nf
    _ = c := Nat.mul_div_cancel_left c (Nat.lt_of_le_of_lt (Nat.zero_le j) hj)

theorem progress_step_mono (c total : Nat) :
    ∀ i j, i ≤ j → c * (i + 1) / total ≤ c * (j + 1) / total := by
  intro i j hij
  exact Nat.div_le_div_right (Nat.mul_le_mul_left c (Nat.succ_le_succ hij))

/-- C6: the Composer on the empty collection succeeds in both modes with a
duration-zero result (the SAI gain step sees pydub's minus-infinity peak on
the empty segment, and multiplying zero samples changes nothing). -/
theorem claim_C6 :
    (∀ mode : Mode, joinAudio [] mode = ([] : Audio))
    ∧ (∀ mode : Mode, (joinAudio [] mode).length = 0) := by
  constructor
  · intro mode
    cases mode <;> rfl
  · intro mode
    cases mode <;> rfl

/-- C8: the spec requires the Normalizer's temporary interchange files to be
deleted on every exit path, but the code only reaches the `os.unlink` calls
on the success path — a failing tool invocation (`subprocess.run(check=True)`
raising) or a failing decode of the tool's output leaves both temporary files
behind.  This theorem evaluates the modelled control flow on all three exit
paths. -/
theorem claim_C8 :
    normalizeAudio false true =
      { returnedOk := false, tmpInDeleted := false, tmpOutDeleted := false
        progressValues := [10, 20] }
    ∧ normalizeAudio true false =
      { returnedOk := false, tmpInDeleted := false, tmpOutDeleted := false
        progressValues := [10, 20, 70] }
    ∧ normalizeAudio true true =
      { returnedOk := true, tmpInDeleted := true, tmpOutDeleted := true
        progressValues := [10, 20, 70, 100] } :=
  ⟨rfl, rfl, rfl⟩

/-- C10: every operation's progress values are integers in `[0, 100]`
(naturals here, so only the upper bound is substantive) and non-decreasing;
for the Composer the two phases are emitted as one non-decreasing sequence,
and every concatenation-phase value is at least every trimming-phase value. -/
theorem claim_C10 (total rows files : Nat) (toolOk decodeOk : Bool) :
    (∀ v ∈ cutProgress total, v ≤ 100)
    ∧ (cutProgress total).Pairwise (· ≤ ·)
    ∧ (∀ v ∈ joinProgress total, v ≤ 100)
    ∧ (joinProgress total).Pairwise (· ≤ ·)
    ∧ (∀ a ∈ (List.range total).map (fun j => 50 * (j + 1) / total),
        ∀ b ∈ (List.range total).map (fun j => 50 + 50 * (j + 1) / total), a ≤ b)
    ∧ (∀ v ∈ (normalizeAudio toolOk decodeOk).progressValues, v ≤ 100)
    ∧ ((normalizeAudio toolOk decodeOk).progressValues).Pairwise (· ≤ ·)
    ∧ (∀ v ∈ ankiProgress rows files, v ≤ 100)
    ∧ (ankiProgress rows files).Pairwise (· ≤ ·) := by
  have hcut : ∀ v ∈ cutProgress total, v ≤ 100 := by
    intro v hv
    rcases List.mem_map.mp hv with ⟨j, hj, rfl⟩
    exact div_mul_le_of_lt 100 (List.mem_range.mp hj)
  have hcross : ∀ a ∈ (List.range total).map (fun j => 50 * (j + 1) / total),
      ∀ b ∈ (List.range total).map (fun j => 50 + 50 * (j + 1) / total), a ≤ b := by
    intro a ha b hb
    rcases List.mem_map.mp ha with ⟨i, hi, rfl⟩
    rcases List.mem_map.mp hb with ⟨j, hj, rfl⟩
    exact Nat.le_trans (div_mul_le_of_lt 50 (List.mem_range.mp hi)) (Nat.le_add_right 50 _)
  refine ⟨hcut, pairwise_le_range_map _ (progress_step_mono 100 total) total, ?_, ?_, hcross,
    ?_, ?_, ?_, ?_⟩
  · intro v hv
    unfold joinProgress at hv
    rcases List.mem_append.mp hv with h | h
    · rcases List.mem_map.mp h with ⟨j, hj, rfl⟩
      show 50 * (j + 1) / total ≤ 100
      exact Nat.le_trans (div_mul_le_of_lt 50 (List.mem_range.mp hj)) (by omega)
    · rcases List.mem_map.mp h with ⟨j, hj, rfl⟩
      show 50 + 50 * (j + 1) / total ≤ 100
      have := div_mul_le_of_lt 50 (List.mem_range.mp hj)
      omega
  · unfold joinProgress
    exact List.pairwise_append.mpr
      ⟨pairwise_le_range_map _ (progress_step_mono 50 total) total,
        pairwise_le_range_map (fun j => 50 + 50 * (j + 1) / total)
          (fun i j hij => Nat.add_le_add_left (progress_step_mono 50 total i j hij) 50) total,
        hcross⟩
  · intro v hv
    cases toolOk <;> cases decodeOk <;> simp_all [normalizeAudio] <;> omega
  · cases toolOk <;> cases decodeOk <;> simp [normalizeAudio]
  · intro v hv
    unfold ankiProgress at hv
    by_cases h : rows ≠ files
    · simp [h] at hv
    · simp only [h, if_neg, not_false_iff] at hv
      rcases List.mem_map.mp hv with ⟨j, hj, rfl⟩
      exact div_mul_le_of_lt 100 (List.mem_range.mp hj)
  · unfold ankiProgress
    by_cases h : rows ≠ files
    · simp [h]
    · simp only [h, if_neg, not_false_iff]
      exact pairwise_le_range_map _ (progress_step_mono 100 rows) rows

/-- C10 witness: the progress theorem applied at concrete operations (Composer
on 4 files, a failing Normalizer run, Row Pairer on 2 rows / 2 files). -/
theorem claim_C10_witness : (75 : Nat) ≤ 100 ∧ (12 : Nat) ≤ 62 := by
  have h := claim_C10 4 2 2 false true
  refine ⟨h.1 75 (by decide), ?_⟩
  exact h.2.2.2.2.1 12 (by decide) 62 (by decide)

/-- C7: the Row Pairer fails atomically with an error carrying both counts
exactly when the row count and file count differ (no output accompanies the
error), and on equal counts appends exactly one `[sound:<name>]` field per
row, in original row order, row `i` receiving the `i`-th numerically sorted
file's name. -/
theorem claim_C7 (rows : List (List String)) (files : List AudioFile) :
    (rows.length ≠ files.length →
      generateAnkiCsv rows files = .error ⟨rows.length, files.length⟩)
    ∧ (rows.length = files.length →
      generateAnkiCsv rows files =
        .ok ((rows.zip (pySortedByKey ankiKey files)).map
          (fun rf => rf.1 ++ ["[sound:" ++ rf.2.name ++ "]"]))
      ∧ ∀ out, generateAnkiCsv rows files = .ok out →
          out.length = rows.length
          ∧ ∀ (i : Nat) (h1 : i < rows.length) (h2 : i < out.length)
              (h3 : i < (pySortedByKey ankiKey files).length),
              out.get ⟨i, h2⟩ = rows.get ⟨i, h1⟩ ++
                ["[sound:" ++ ((pySortedByKey ankiKey files).get ⟨i, h3⟩).name ++ "]"]) := by
  have hlen : (pySortedByKey ankiKey files).length = files.length :=
    (pySortedByKey_perm ankiKey files).length_eq
  constructor
  · intro hne
    unfold generateAnkiCsv
    rw [hlen]
    simp [hne]
  · intro heq
    have heq2 : rows.length = (pySortedByKey ankiKey files).length := by omega
    have hok : generateAnkiCsv rows files =
        .ok ((rows.zip (pySortedByKey ankiKey files)).map
          (fun rf => rf.1 ++ ["[sound:" ++ rf.2.name ++ "]"])) := by
      unfold generateAnkiCsv
      rw [hlen]
      simp [heq]
    refine ⟨hok, ?_⟩
    intro out hout
    rw [hok] at hout
    injection hout with hout
    subst hout
    constructor
    · rw [List.length_map, List.length_zip]
      omega
    · intro i h1 h2 h3
      have hzlen : i < (rows.zip (pySortedByKey ankiKey files)).length := by
        rw [List.length_zip]
        omega
      simp only [List.get_eq_getElem, List.getElem_map, List.getElem_zip]

/-- C7 witness: the theorem applied to the spec's own examples — mismatched
counts (3 rows, 2 files) produce the error carrying (3, 2). -/
theorem claim_C7_witness :
    generateAnkiCsv [["a"], ["b"], ["c"]] [⟨"2-x", []⟩, ⟨"1-y", []⟩] =
      .error ⟨3, 2⟩ :=
  (claim_C7 [["a"], ["b"], ["c"]] [⟨"2-x", []⟩, ⟨"1-y", []⟩]).1 (by decide)

/-- C3 counterexample: with transcript lines `["Hello, World!", ""]` and two
chunks, the second name is `"2--X.mp3"`, not `"2-2-X.mp3"` — an existing but
empty transcript line yields an empty label; the index fallback of line 40
fires only when the line does not exist at all. -/
theorem claim_C3_counterexample :
    cutNames ["Hello, World!", ""] "X" 2 = ["1-HelloWorld-X.mp3", "2--X.mp3"]
    ∧ "2--X.mp3" ≠ "2-2-X.mp3" := by
  constructor
  · rfl
  · decide

/-- C3 amended: chunk `i`'s label is transcript line `i-1` stripped of
non-word characters whenever that line exists — even when it is empty, in
which case the label is empty and the name is `"{i}--{suffix}.mp3"` — and the
decimal index is used only when the transcript has fewer than `i` lines; the
names of `cut_audio`'s output are exactly these, in chunk order. -/
theorem claim_C3 (s : Audio) (lines : List String) (suffix : String) (i : Nat) :
    (cutAudio s lines suffix).map Prod.fst =
      cutNames lines suffix (splitOnSilence 1000 (-50) 150 s).length
    ∧ (i - 1 < lines.length →
        cutLabel lines i = stripNonWord (pyStrip (lines.getD (i - 1) "")))
    ∧ (lines.length ≤ i - 1 → cutLabel lines i = toString i)
    ∧ cutName lines suffix i =
        toString i ++ "-" ++ cutLabel lines i ++ "-" ++ suffix ++ ".mp3"
    ∧ cutNames ["Hello, World!", ""] "X" 2 = ["1-HelloWorld-X.mp3", "2--X.mp3"] := by
  refine ⟨?_, ?_, ?_, rfl, rfl⟩
  · unfold cutAudio cutNames
    rw [List.map_map]
    have : (Prod.fst ∘ fun ic : Nat × Audio =>
        (cutName lines suffix (ic.1 + 1), pySilent 150 ++ ic.2 ++ pySilent 150)) =
        (fun ic : Nat × Audio => cutName lines suffix (ic.1 + 1)) := rfl
    rw [this]
    have h2 : (fun ic : Nat × Audio => cutName lines suffix (ic.1 + 1)) =
        ((fun j => cutName lines suffix (j + 1)) ∘ Prod.fst) := rfl
    rw [h2, ← List.map_map, List.enum_map_fst]
  · intro h
    unfold cutLabel
    rw [dif_pos h]
    rw [List.getD_eq_getElem _ _ h]
    rfl
  · intro h
    unfold cutLabel
    rw [dif_neg (by omega)]

/-- C3 amended witness: the theorem applied at the concrete transcript
`["Hello, World!", ""]` (existing empty line 1, missing line 2). -/
theorem claim_C3_witness :
    cutLabel ["Hello, World!", ""] 2 =
      stripNonWord (pyStrip ((["Hello, World!", ""] : List String).getD 1 ""))
    ∧ cutLabel ["Hello, World!", ""] 3 = toString 3 :=
  ⟨(claim_C3 [] ["Hello, World!", ""] "X" 2).2.1 (by decide),
    (claim_C3 [] ["Hello, World!", ""] "X" 3).2.2.1 (by decide)⟩

/-! ## Peak / gain algebra for the Composer -/

theorem peakDBFS_applyGain (g : ℚ) :
    ∀ s : Audio, peakDBFS (applyGain g s) = (peakDBFS s).map (fun v => v + g)
  | [] => rfl
  | x :: s => by
    unfold applyGain peakDBFS
    simp only [List.map_cons, List.foldr_cons]
    have ih := peakDBFS_applyGain g s
    unfold applyGain peakDBFS at ih
    rw [ih]
    cases x with
    | none => cases (s.map (fun y => y.map (fun v => v + g))).foldr sampleMax none <;>
        cases hs : s.foldr sampleMax none <;> simp_all [sampleMax]
    | some v =>
      cases hs : s.foldr sampleMax none with
      | none => simp [sampleMax]
      | some w =>
        show some (max (v + g) (w + g)) = some (max v w + g)
        rw [max_add_add_right]

theorem claim_C2_join_flatten (mode : Mode) :
    ∀ (init : Audio) (segs : List Audio),
      segs.foldl (fun acc seg => acc ++ seg ++ fillerFor mode seg) init =
        init ++ (segs.map (fun seg => seg ++ fillerFor mode seg)).flatten
  | init, [] => by simp
  | init, seg :: segs => by
    simp only [List.foldl_cons, List.map_cons, List.flatten_cons]
    rw [claim_C2_join_flatten mode (init ++ seg ++ fillerFor mode seg) segs]
    simp

theorem joinAudio_SAI_eq (files : List AudioFile) :
    joinAudio files .SAI =
      (match peakDBFS (joinCombined files .SAI) with
       | some p => applyGain (-3 - p) (joinCombined files .SAI)
       | none => joinCombined files .SAI) := rfl

/-- C2: on any non-empty collection the Composer's concatenation is exactly
the trimmed chunks in numeric-sorted order, each followed by its silence
filler (1000 ms in SAI, twice the trimmed duration in LAR), including a
filler after the final chunk; mode LAR returns that concatenation unchanged
(no gain), and mode SAI applies the single uniform gain
`-3 - measured_peak_dBFS`, after which the peak is exactly `-3` dBFS
(whenever the concatenation has a measurable peak, i.e. any non-silent
frame — on all-silent data pydub's peak is minus infinity and no finite
gain exists). -/
theorem claim_C2 (files : List AudioFile) (mode : Mode) (_hne : files ≠ []) :
    joinCombined files mode =
      ((pySortedByKey joinKey files).map
        (fun f => trimSeg f.data ++ fillerFor mode (trimSeg f.data))).flatten
    ∧ joinAudio files .LAR = joinCombined files .LAR
    ∧ (∀ p : ℚ, peakDBFS (joinCombined files .SAI) = some p →
        joinAudio files .SAI = applyGain (-3 - p) (joinCombined files .SAI)
        ∧ peakDBFS (joinAudio files .SAI) = some (-3)) := by
  refine ⟨?_, rfl, ?_⟩
  · unfold joinCombined
    rw [claim_C2_join_flatten mode [] _]
    simp only [List.nil_append, List.map_map]
    rfl
  · intro p hp
    have hgain : joinAudio files .SAI = applyGain (-3 - p) (joinCombined files .SAI) := by
      rw [joinAudio_SAI_eq, hp]
    refine ⟨hgain, ?_⟩
    rw [hgain, peakDBFS_applyGain, hp]
    show some (p + (-3 - p)) = some (-3)
    congr 1
    ring

/-- C2 witness: the theorem applied to one file holding a single 0 dBFS
frame; the SAI composition peaks at 0 dBFS and the output peaks at exactly
-3 dBFS. -/
theorem claim_C2_witness :
    peakDBFS (joinAudio [⟨"1", [some 0]⟩] .SAI) = some (-3) :=
  ((claim_C2 [⟨"1", [some 0]⟩] .SAI (List.cons_ne_nil _ _)).2.2 0 (by decide)).2

/-! ## Structure of the detected spans

The lemmas below characterise `detectNonsilent`: total run length, the start
of the first span, the end of the last span, bounds and chronological order.
They drive the Trimmer and Segmenter claims. -/

/-- Total length covered by a run list. -/
def runsLen (R : List (Bool × Nat)) : Nat := (R.map Prod.snd).sum

theorem runsLen_nil : runsLen [] = 0 := rfl

theorem runsLen_cons (r : Bool × Nat) (R : List (Bool × Nat)) :
    runsLen (r :: R) = r.2 + runsLen R := by
  unfold runsLen
  simp

theorem runsLen_append (A B : List (Bool × Nat)) :
    runsLen (A ++ B) = runsLen A + runsLen B := by
  unfold runsLen
  simp

theorem runsLen_rleGo (b : Bool) (n : Nat) :
    ∀ tl : List Bool, runsLen (rleGo b n tl) = n + tl.length
  | [] => by simp [rleGo, runsLen]
  | c :: rest => by
    unfold rleGo
    by_cases h : c = b
    · simp only [h, if_pos]
      rw [runsLen_rleGo b (n + 1) rest]
      simp
      omega
    · simp only [h, if_neg, not_false_iff]
      rw [runsLen_cons, runsLen_rleGo c 1 rest]
      simp
      omega

theorem runsLen_rle (bs : List Bool) : runsLen (rle bs) = bs.length := by
  cases bs with
  | nil => rfl
  | cons b tl =>
    unfold rle
    rw [runsLen_rleGo]
    simp only [List.length_cons]
    omega

theorem rleGo_cons_eq (b : Bool) (n : Nat) (c : Bool) (rest : List Bool) :
    rleGo b n (c :: rest) =
      if c = b then rleGo b (n + 1) rest else (b, n) :: rleGo c 1 rest := rfl

theorem rleGo_replicate_absorb (b : Bool) :
    ∀ (m n : Nat) (rest : List Bool),
      rleGo b n (List.replicate m b ++ rest) = rleGo b (n + m) rest
  | 0, n, rest => by simp [List.replicate]
  | m + 1, n, rest => by
    simp only [List.replicate, List.cons_append]
    rw [rleGo_cons_eq, if_pos rfl, rleGo_replicate_absorb b m (n + 1) rest]
    have h : n + 1 + m = n + (m + 1) := by omega
    rw [h]

theorem rleGo_ne_head (b : Bool) (n : Nat) (c : Bool) (rest : List Bool) (h : c ≠ b) :
    rleGo b n (c :: rest) = (b, n) :: rleGo c 1 rest := by
  rw [rleGo_cons_eq, if_neg h]

theorem rle_cons_eq (b : Bool) (rest : List Bool) : rle (b :: rest) = rleGo b 1 rest := rfl

theorem spansGo_nil_eq (minLen pos : Nat) (openS : Option Nat) :
    spansGo minLen pos openS [] =
      (match openS with | some st => [(st, pos)] | none => []) := rfl

theorem spansGo_cons_eq (minLen pos : Nat) (openS : Option Nat) (b : Bool) (n : Nat)
    (rs : List (Bool × Nat)) :
    spansGo minLen pos openS ((b, n) :: rs) =
      if b then spansGo minLen (pos + n) (some (openS.getD pos)) rs
      else if minLen ≤ n then
        (match openS with | some st => [(st, pos)] | none => []) ++
          spansGo minLen (pos + n) none rs
      else spansGo minLen (pos + n) (some (openS.getD pos)) rs := rfl

theorem spansGo_cons_true (minLen pos n : Nat) (openS : Option Nat) (rs : List (Bool × Nat)) :
    spansGo minLen pos openS ((true, n) :: rs) =
      spansGo minLen (pos + n) (some (openS.getD pos)) rs := by
  rw [spansGo_cons_eq]
  simp

theorem spansGo_cons_false_long (minLen pos n : Nat) (openS : Option Nat)
    (rs : List (Bool × Nat)) (h : minLen ≤ n) :
    spansGo minLen pos openS ((false, n) :: rs) =
      (match openS with | some st => [(st, pos)] | none => []) ++
        spansGo minLen (pos + n) none rs := by
  rw [spansGo_cons_eq]
  simp [h]

theorem spansGo_cons_false_short (minLen pos n : Nat) (openS : Option Nat)
    (rs : List (Bool × Nat)) (h : ¬ minLen ≤ n) :
    spansGo minLen pos openS ((false, n) :: rs) =
      spansGo minLen (pos + n) (some (openS.getD pos)) rs := by
  rw [spansGo_cons_eq]
  simp [h]

theorem rleGo_shape (b : Bool) (n : Nat) :
    ∀ tl : List Bool, ∃ m rs, rleGo b n tl = (b, m) :: rs
  | [] => ⟨n, [], rfl⟩
  | c :: rest => by
    unfold rleGo
    by_cases h : c = b
    · simp only [h, if_pos]
      exact rleGo_shape b (n + 1) rest
    · simp only [h, if_neg, not_false_iff]
      exact ⟨n, rleGo c 1 rest, rfl⟩

theorem rleGo_lastRun (b : Bool) (n : Nat) :
    ∀ tl : List Bool, ∃ R k, rleGo b n tl = R ++ [(tl.getLastD b, k)]
  | [] => ⟨[], n, rfl⟩
  | c :: rest => by
    rw [List.getLastD_cons]
    unfold rleGo
    by_cases h : c = b
    · simp only [h, if_pos]
      rcases rleGo_lastRun b (n + 1) rest with ⟨R, k, hR⟩
      subst h
      exact ⟨R, k, hR⟩
    · simp only [h, if_neg, not_false_iff]
      rcases rleGo_lastRun c 1 rest with ⟨R, k, hR⟩
      exact ⟨(b, n) :: R, k, by rw [hR]; rfl⟩

theorem rleGo_append_replicate_false (t : Nat) (ht : 0 < t) :
    ∀ (tl : List Bool) (b : Bool) (n : Nat), tl.getLastD b = true →
      rleGo b n (tl ++ List.replicate t false) = rleGo b n tl ++ [(false, t)]
  | [], b, n, hlast => by
    simp only [List.getLastD] at hlast
    subst hlast
    obtain ⟨t', rfl⟩ : ∃ t', t = t' + 1 := ⟨t - 1, by omega⟩
    simp only [List.nil_append, List.replicate, rleGo_ne_head true n false _ (by simp)]
    have : rleGo false 1 (List.replicate t' false) = [(false, 1 + t')] := by
      have h2 := rleGo_replicate_absorb false t' 1 ([] : List Bool)
      rw [List.append_nil] at h2
      rw [h2]
      rfl
    rw [this]
    have : (1 + t' : Nat) = t' + 1 := by omega
    rw [this]
    rfl
  | c :: tl', b, n, hlast => by
    rw [List.getLastD_cons] at hlast
    simp only [List.cons_append]
    unfold rleGo
    by_cases h : c = b
    · subst h
      simp only [if_pos]
      rw [rleGo_append_replicate_false t ht tl' c (n + 1) hlast]
    · simp only [h, if_neg, not_false_iff]
      rw [rleGo_append_replicate_false t ht tl' c 1 hlast]
      rfl

theorem rle_append_replicate_false (B : List Bool) (hB : B.getLastD false = true)
    (t : Nat) (ht : 0 < t) :
    rle (B ++ List.replicate t false) = rle B ++ [(false, t)] := by
  cases B with
  | nil => simp at hB
  | cons b tl =>
    rw [List.getLastD_cons] at hB
    unfold rle
    simp only [List.cons_append]
    exact rleGo_append_replicate_false t ht tl b 1 hB

theorem spansGo_open_head (minLen : Nat) :
    ∀ (R : List (Bool × Nat)) (pos st : Nat),
      ∃ e tl, spansGo minLen pos (some st) R = (st, e) :: tl
  | [], pos, st => ⟨pos, [], rfl⟩
  | (b, n) :: rs, pos, st => by
    unfold spansGo
    by_cases hb : b = true
    · subst hb
      simp only [if_pos]
      exact spansGo_open_head minLen rs (pos + n) st
    · simp only [hb, if_neg, not_false_iff, Bool.false_eq_true]
      by_cases hn : minLen ≤ n
      · simp only [hn, if_pos]
        exact ⟨pos, spansGo minLen (pos + n) none rs, rfl⟩
      · simp only [hn, if_neg, not_false_iff]
        exact spansGo_open_head minLen rs (pos + n) st

/-- Start of the first detected span: the leading silent run survives as an
offset exactly when it is at least `minLen` long. -/
theorem spans_head_of_decomp (minLen : Nat) (l : Nat) (rest : List Bool) :
    ∃ e tl, spansGo minLen 0 none (rle (List.replicate l false ++ true :: rest)) =
      ((if minLen ≤ l then l else 0), e) :: tl := by
  have h0 : ∀ x : Nat, (if minLen ≤ 0 then (0 : Nat) else 0) = 0 := by
    intro x
    split <;> rfl
  cases l with
  | zero =>
    simp only [List.replicate, List.nil_append]
    rw [rle_cons_eq]
    rcases rleGo_shape true 1 rest with ⟨m, rs, hshape⟩
    rw [hshape, spansGo_cons_true, h0 0]
    simpa using spansGo_open_head minLen rs (0 + m) 0
  | succ l' =>
    simp only [List.replicate, List.cons_append]
    rw [rle_cons_eq, rleGo_replicate_absorb false l' 1 (true :: rest),
      rleGo_ne_head false (1 + l') true rest (by simp)]
    have hlen : 1 + l' = l' + 1 := by omega
    rw [hlen]
    by_cases hq : minLen ≤ l' + 1
    · rw [spansGo_cons_false_long minLen 0 (l' + 1) none _ hq]
      simp only [if_pos hq, List.nil_append]
      rcases rleGo_shape true 1 rest with ⟨m, rs, hshape⟩
      rw [hshape, spansGo_cons_true]
      simpa using spansGo_open_head minLen rs (0 + (l' + 1) + m) (l' + 1)
  -- fallthrough below closes the short case
    · rw [spansGo_cons_false_short minLen 0 (l' + 1) none _ hq]
      simp only [if_neg hq]
      simpa using spansGo_open_head minLen (rleGo true 1 rest) (0 + (l' + 1)) 0

theorem getLast?_map_snd_append (A B : List (Nat × Nat)) :
    ((A ++ B).getLast?).map Prod.snd =
      ((B.getLast?).map Prod.snd).or ((A.getLast?).map Prod.snd) := by
  rw [List.getLast?_append]
  cases B.getLast? <;> simp [Option.or]

theorem spansGo_getLast_snoc_true (minLen : Nat) :
    ∀ (R : List (Bool × Nat)) (pos : Nat) (openS : Option Nat) (n : Nat),
      ((spansGo minLen pos openS (R ++ [(true, n)])).getLast?).map Prod.snd =
        some (pos + runsLen R + n)
  | [], pos, openS, n => by
    simp only [List.nil_append]
    rw [spansGo_cons_true, spansGo_nil_eq]
    show (([(openS.getD pos, pos + n)] : List (Nat × Nat)).getLast?).map Prod.snd =
      some (pos + runsLen [] + n)
    simp [runsLen_nil]
  | (b, m) :: R', pos, openS, n => by
    simp only [List.cons_append]
    cases b with
    | true =>
      rw [spansGo_cons_true, spansGo_getLast_snoc_true minLen R' (pos + m) _ n, runsLen_cons]
      congr 1
      omega
    | false =>
      by_cases hm : minLen ≤ m
      · rw [spansGo_cons_false_long minLen pos m openS _ hm, getLast?_map_snd_append,
          spansGo_getLast_snoc_true minLen R' (pos + m) none n, runsLen_cons]
        show some (pos + m + runsLen R' + n) = some (pos + (m + runsLen R') + n)
        congr 1
        omega
      · rw [spansGo_cons_false_short minLen pos m openS _ hm,
          spansGo_getLast_snoc_true minLen R' (pos + m) _ n, runsLen_cons]
        congr 1
        omega

theorem spansGo_getLast_snoc_false_short (minLen t : Nat) (ht : ¬ minLen ≤ t) :
    ∀ (R : List (Bool × Nat)) (pos : Nat) (openS : Option Nat),
      ((spansGo minLen pos openS (R ++ [(false, t)])).getLast?).map Prod.snd =
        some (pos + runsLen R + t)
  | [], pos, openS => by
    simp only [List.nil_append]
    rw [spansGo_cons_false_short minLen pos t openS _ ht, spansGo_nil_eq]
    show (([(openS.getD pos, pos + t)] : List (Nat × Nat)).getLast?).map Prod.snd =
      some (pos + runsLen [] + t)
    simp [runsLen_nil]
  | (b, m) :: R', pos, openS => by
    simp only [List.cons_append]
    cases b with
    | true =>
      rw [spansGo_cons_true, spansGo_getLast_snoc_false_short minLen t ht R' (pos + m) _,
        runsLen_cons]
      congr 1
      omega
    | false =>
      by_cases hm : minLen ≤ m
      · rw [spansGo_cons_false_long minLen pos m openS _ hm, getLast?_map_snd_append,
          spansGo_getLast_snoc_false_short minLen t ht R' (pos + m) none, runsLen_cons]
        show some (pos + m + runsLen R' + t) = some (pos + (m + runsLen R') + t)
        congr 1
        omega
      · rw [spansGo_cons_false_short minLen pos m openS _ hm,
          spansGo_getLast_snoc_false_short minLen t ht R' (pos + m) _, runsLen_cons]
        congr 1
        omega

theorem spansGo_getLast_snoc_false_long (minLen t : Nat) (ht : minLen ≤ t) :
    ∀ (R : List (Bool × Nat)) (pos : Nat) (openS : Option Nat),
      ((spansGo minLen pos openS (R ++ [(false, t)])).getLast?).map Prod.snd =
        ((spansGo minLen pos openS R).getLast?).map Prod.snd
  | [], pos, openS => by
    simp only [List.nil_append]
    rw [spansGo_cons_false_long minLen pos t openS _ ht, spansGo_nil_eq, spansGo_nil_eq,
      List.append_nil]
  | (b, m) :: R', pos, openS => by
    simp only [List.cons_append]
    cases b with
    | true =>
      rw [spansGo_cons_true, spansGo_cons_true,
        spansGo_getLast_snoc_false_long minLen t ht R' (pos + m) _]
    | false =>
      by_cases hm : minLen ≤ m
      · rw [spansGo_cons_false_long minLen pos m openS _ hm,
          spansGo_cons_false_long minLen pos m openS _ hm,
          getLast?_map_snd_append, getLast?_map_snd_append,
          spansGo_getLast_snoc_false_long minLen t ht R' (pos + m) none]
      · rw [spansGo_cons_false_short minLen pos m openS _ hm,
          spansGo_cons_false_short minLen pos m openS _ hm,
          spansGo_getLast_snoc_false_long minLen t ht R' (pos + m) _]

/-- End of the last detected span when the mask ends with a loud frame: the
whole length. -/
theorem spans_last_ends_true (minLen : Nat) (bs : List Bool)
    (h : bs.getLastD false = true) :
    ((spansGo minLen 0 none (rle bs)).getLast?).map Prod.snd = some bs.length := by
  cases bs with
  | nil => simp [List.getLastD] at h
  | cons b tl =>
    rw [List.getLastD_cons] at h
    rw [rle_cons_eq]
    rcases rleGo_lastRun b 1 tl with ⟨R, k, hR⟩
    rw [h] at hR
    have hlen : runsLen R + k = (b :: tl).length := by
      have h2 : runsLen (rleGo b 1 tl) = 1 + tl.length := runsLen_rleGo b 1 tl
      rw [hR, runsLen_append] at h2
      have h3 : runsLen [(true, k)] = k := by simp [runsLen]
      rw [h3] at h2
      simp only [List.length_cons]
      omega
    rw [hR, spansGo_getLast_snoc_true]
    congr 1
    omega

/-- End of the last detected span, from the trailing-silence decomposition:
a trailing silent run of at least `minLen` is cut away, a shorter one is kept
inside the final span. -/
theorem spans_last_of_decomp (minLen : Nat) (init : List Bool) (t : Nat) :
    ((spansGo minLen 0 none (rle (init ++ true :: List.replicate t false))).getLast?).map
        Prod.snd =
      some (if minLen ≤ t then init.length + 1 else init.length + 1 + t) := by
  cases t with
  | zero =>
    have hbs : init ++ true :: List.replicate 0 false = init ++ [true] := rfl
    rw [hbs, spans_last_ends_true minLen _ (List.getLastD_concat _ _ _)]
    have : (init ++ [true]).length = init.length + 1 := by simp
    rw [this]
    split <;> rfl
  | succ t' =>
    have hbs : init ++ true :: List.replicate (t' + 1) false =
        (init ++ [true]) ++ List.replicate (t' + 1) false := by
      rw [List.append_cons]
    rw [hbs, rle_append_replicate_false (init ++ [true]) (List.getLastD_concat _ _ _)
      (t' + 1) (by omega)]
    by_cases hq : minLen ≤ t' + 1
    · rw [spansGo_getLast_snoc_false_long minLen (t' + 1) hq (rle (init ++ [true])) 0 none,
        spans_last_ends_true minLen _ (List.getLastD_concat _ _ _), if_pos hq]
      congr 1
      simp
    · rw [spansGo_getLast_snoc_false_short minLen (t' + 1) hq (rle (init ++ [true])) 0 none,
        runsLen_rle, if_neg hq]
      congr 1
      simp

/-- Every detected span is well-formed and bounded: its start is at least the
open start (or current position), starts do not exceed ends, and ends stay
within the material walked so far. -/
theorem spansGo_mem_bounds (minLen : Nat) :
    ∀ (R : List (Bool × Nat)) (pos : Nat) (openS : Option Nat),
      (∀ st, openS = some st → st ≤ pos) →
      ∀ q ∈ spansGo minLen pos openS R,
        (match openS with | some st => st | none => pos) ≤ q.1
        ∧ q.1 ≤ q.2 ∧ q.2 ≤ pos + runsLen R
  | [], pos, openS, hop, q, hq => by
    rw [spansGo_nil_eq] at hq
    cases openS with
    | none => simp at hq
    | some st =>
      simp only [List.mem_singleton] at hq
      subst hq
      exact ⟨Nat.le_refl st, hop st rfl, by simp [runsLen_nil]⟩
  | (b, m) :: R', pos, openS, hop, q, hq => by
    cases b with
    | true =>
      rw [spansGo_cons_true] at hq
      have hop' : ∀ st, some (openS.getD pos) = some st → st ≤ pos + m := by
        intro st hst
        injection hst with hst
        cases openS with
        | none => simp at hst; omega
        | some s0 =>
          simp only [Option.getD] at hst
          have := hop s0 rfl
          omega
      have hrec := spansGo_mem_bounds minLen R' (pos + m) (some (openS.getD pos)) hop' q hq
      rw [runsLen_cons]
      rcases hrec with ⟨h1, h2, h3⟩
      refine ⟨?_, h2, by omega⟩
      cases openS with
      | none => simpa using h1
      | some s0 => simpa using h1
    | false =>
      by_cases hm : minLen ≤ m
      · rw [spansGo_cons_false_long minLen pos m openS _ hm] at hq
        rcases List.mem_append.mp hq with hq1 | hq2
        · cases openS with
          | none => simp at hq1
          | some st =>
            simp only [List.mem_singleton] at hq1
            subst hq1
            exact ⟨Nat.le_refl st, hop st rfl, by rw [runsLen_cons]; omega⟩
        · have hrec := spansGo_mem_bounds minLen R' (pos + m) none (by simp) q hq2
          rcases hrec with ⟨h1, h2, h3⟩
          simp only at h1
          rw [runsLen_cons]
          refine ⟨?_, h2, by omega⟩
          cases openS with
          | none => simp; omega
          | some s0 =>
            simp only
            have := hop s0 rfl
            omega
      · rw [spansGo_cons_false_short minLen pos m openS _ hm] at hq
        have hop' : ∀ st, some (openS.getD pos) = some st → st ≤ pos + m := by
          intro st hst
          injection hst with hst
          cases openS with
          | none => simp at hst; omega
          | some s0 =>
            simp only [Option.getD] at hst
            have := hop s0 rfl
            omega
        have hrec := spansGo_mem_bounds minLen R' (pos + m) (some (openS.getD pos)) hop' q hq
        rcases hrec with ⟨h1, h2, h3⟩
        rw [runsLen_cons]
        refine ⟨?_, h2, by omega⟩
        cases openS with
        | none => simpa using h1
        | some s0 => simpa using h1

/-- Detected spans are chronological and separated by at least `minLen` ms of
qualifying silence. -/
theorem spansGo_chain (minLen : Nat) :
    ∀ (R : List (Bool × Nat)) (pos : Nat) (openS : Option Nat),
      (∀ st, openS = some st → st ≤ pos) →
      List.Chain' (fun a b => a.2 + minLen ≤ b.1) (spansGo minLen pos openS R)
  | [], pos, openS, _ => by
    rw [spansGo_nil_eq]
    cases openS with
    | none => exact List.chain'_nil
    | some st => exact List.chain'_singleton _
  | (b, m) :: R', pos, openS, hop => by
    cases b with
    | true =>
      rw [spansGo_cons_true]
      refine spansGo_chain minLen R' (pos + m) _ ?_
      intro st hst
      injection hst with hst
      cases openS with
      | none => simp at hst; omega
      | some s0 =>
        simp only [Option.getD] at hst
        have := hop s0 rfl
        omega
    | false =>
      by_cases hm : minLen ≤ m
      · rw [spansGo_cons_false_long minLen pos m openS _ hm]
        cases openS with
        | none =>
          simp only [List.nil_append]
          exact spansGo_chain minLen R' (pos + m) none (by simp)
        | some st =>
          simp only [List.singleton_append]
          rw [List.chain'_cons']
          refine ⟨?_, spansGo_chain minLen R' (pos + m) none (by simp)⟩
          intro y hy
          have hmem := List.mem_of_mem_head? hy
          have := (spansGo_mem_bounds minLen R' (pos + m) none (by simp) y hmem).1
          simp only at this
          omega
      · rw [spansGo_cons_false_short minLen pos m openS _ hm]
        refine spansGo_chain minLen R' (pos + m) _ ?_
        intro st hst
        injection hst with hst
        cases openS with
        | none => simp at hst; omega
        | some s0 =>
          simp only [Option.getD] at hst
          have := hop s0 rfl
          omega

/-- Detected spans over an entirely silent mask: empty when the input reaches
`minLen` (or is empty), otherwise one span covering everything (as pydub
reports for inputs shorter than the window). -/
theorem spans_replicate_false (minLen len : Nat) :
    spansGo minLen 0 none (rle (List.replicate len false)) =
      if len = 0 then [] else if minLen ≤ len then [] else [(0, len)] := by
  cases len with
  | zero => rfl
  | succ l' =>
    simp only [List.replicate, rle_cons_eq]
    have habs := rleGo_replicate_absorb false l' 1 ([] : List Bool)
    rw [List.append_nil] at habs
    have hrepl : rleGo false 1 (List.replicate l' false) = [(false, 1 + l')] := by
      rw [habs]
      rfl
    rw [hrepl]
    have hne : (l' + 1 : Nat) ≠ 0 := by omega
    by_cases hq : minLen ≤ l' + 1
    · rw [spansGo_cons_false_long minLen 0 (1 + l') none _ (by omega), spansGo_nil_eq]
      simp [hne, hq]
    · rw [spansGo_cons_false_short minLen 0 (1 + l') none _ (by omega), spansGo_nil_eq]
      show [((0 : Nat), 0 + (1 + l'))] = _
      simp [hne, hq]
      omega

/-- Length of the leading silent (false) run of a mask. -/
def leadSilence (bs : List Bool) : Nat := (bs.takeWhile (fun b => !b)).length

/-- Length of the trailing silent (false) run of a mask. -/
def tailSilence (bs : List Bool) : Nat := leadSilence bs.reverse

/-- A mask with a loud frame splits as leading silence, first loud frame,
remainder. -/
theorem mask_decomp_head (bs : List Bool) (h : bs.any (fun b => b) = true) :
    ∃ rest, bs = List.replicate (leadSilence bs) false ++ true :: rest := by
  have hsplit := List.takeWhile_append_dropWhile (fun b => !b) bs
  have htake : bs.takeWhile (fun b => !b) = List.replicate (leadSilence bs) false := by
    rw [List.eq_replicate_iff]
    refine ⟨rfl, ?_⟩
    intro x hx
    have := List.mem_takeWhile_imp hx
    simp at this
    exact this
  have hdropne : bs.dropWhile (fun b => !b) ≠ [] := by
    intro hnil
    rw [List.dropWhile_eq_nil_iff] at hnil
    rcases List.any_eq_true.mp h with ⟨x, hx, hxt⟩
    have := hnil x hx
    rw [hxt] at this
    simp at this
  cases hd : bs.dropWhile (fun b => !b) with
  | nil => exact absurd hd hdropne
  | cons c rest =>
    have hc : c = true := by
      have hhead := List.head_dropWhile_not (fun b => !b) bs hdropne
      have h3 : (bs.dropWhile (fun b => !b)).head? = some c := by rw [hd]; rfl
      have h4 := List.head?_eq_head hdropne
      rw [h4] at h3
      have h5 := Option.some.inj h3
      rw [h5] at hhead
      simp at hhead
      exact hhead
    refine ⟨rest, ?_⟩
    rw [← htake, ← hc, ← hd, hsplit]

/-- A mask with a loud frame splits as initial part, last loud frame,
trailing silence. -/
theorem mask_decomp_last (bs : List Bool) (h : bs.any (fun b => b) = true) :
    ∃ init : List Bool, bs = init ++ true :: List.replicate (tailSilence bs) false
      ∧ init.length + 1 + tailSilence bs = bs.length := by
  have hrev : bs.reverse.any (fun b => b) = true := by
    rcases List.any_eq_true.mp h with ⟨x, hx, hxt⟩
    exact List.any_eq_true.mpr ⟨x, List.mem_reverse.mpr hx, hxt⟩
  rcases mask_decomp_head bs.reverse hrev with ⟨rest, hdec⟩
  have hb : bs = (List.replicate (leadSilence bs.reverse) false ++ true :: rest).reverse := by
    rw [← hdec, List.reverse_reverse]
  refine ⟨rest.reverse, ?_, ?_⟩
  · show bs = rest.reverse ++ true :: List.replicate (leadSilence bs.reverse) false
    conv_lhs => rw [hb]
    simp [List.reverse_append, List.reverse_cons, List.reverse_replicate, List.append_assoc]
  · have hlen := congrArg List.length hb
    simp at hlen
    rw [List.length_reverse]
    show rest.length + 1 + leadSilence bs.reverse = bs.length
    omega

/-! ## Slice facts -/

theorem length_pySliceNat {α : Type} (s : List α) (a b : Nat) :
    (pySliceNat s a b).length = min b s.length - a := by
  unfold pySliceNat
  rw [List.length_drop, List.length_take]

theorem pySliceNat_zero_length {α : Type} (s : List α) : pySliceNat s 0 s.length = s := by
  unfold pySliceNat
  rw [List.take_of_length_le (Nat.le_refl _), List.drop_zero]

theorem loudMask_pySliceNat (thresh : ℚ) (s : Audio) (a b : Nat) :
    loudMask thresh (pySliceNat s a b) = pySliceNat (loudMask thresh s) a b := by
  unfold loudMask pySliceNat
  rw [List.map_drop, List.map_take]

theorem loudMask_length (thresh : ℚ) (s : Audio) : (loudMask thresh s).length = s.length := by
  unfold loudMask
  rw [List.length_map]

theorem pySliceNat_decomp_head (l a b : Nat) (rest : List Bool) (ha : a ≤ l) (hb : l < b) :
    pySliceNat (List.replicate l false ++ true :: rest) a b =
      List.replicate (l - a) false ++ true :: List.take (b - l - 1) rest := by
  unfold pySliceNat
  rw [List.take_append_eq_append_take, List.take_replicate, List.length_replicate]
  have h1 : min b l = l := by omega
  rw [h1]
  have h2 : b - l = (b - l - 1) + 1 := by omega
  rw [h2, List.take_succ_cons]
  rw [List.drop_append_eq_append_drop, List.drop_replicate, List.length_replicate]
  have h3 : a - l = 0 := by omega
  rw [h3, List.drop_zero, Nat.add_sub_cancel]

theorem pySliceNat_decomp_last (init : List Bool) (t a b : Nat)
    (ha : a ≤ init.length) (hb1 : init.length + 1 ≤ b) (hb2 : b ≤ init.length + 1 + t) :
    pySliceNat (init ++ true :: List.replicate t false) a b =
      init.drop a ++ true :: List.replicate (b - init.length - 1) false := by
  unfold pySliceNat
  rw [List.take_append_eq_append_take]
  have htk : List.take b init = init := List.take_of_length_le (by omega)
  rw [htk]
  have h2 : b - init.length = (b - init.length - 1) + 1 := by omega
  rw [h2, List.take_succ_cons, List.take_replicate]
  have h3 : min (b - init.length - 1) t = b - init.length - 1 := by omega
  rw [h3]
  rw [List.drop_append_eq_append_drop]
  have h4 : a - init.length = 0 := by omega
  rw [h4, List.drop_zero, Nat.add_sub_cancel]

/-- C5: the Trimmer keeps a waveform with no detected non-silent interval
unchanged; otherwise it returns exactly the contiguous sub-span from the
first span's start minus the 100 ms guard (clamped below at 0 by truncated
subtraction) to the last span's end plus the guard (clamped above at the
duration), and its length is the corresponding clamped difference, never
exceeding the input's duration. -/
theorem claim_C5 (s : Audio) :
    (detectNonsilent 25 (-40) s = [] → trimSeg s = s)
    ∧ ∀ (p : Nat × Nat) (rest : List (Nat × Nat)),
        detectNonsilent 25 (-40) s = p :: rest →
        trimSeg s =
          (s.take (min s.length (((p :: rest).getLastD (0, 0)).2 + 100))).drop (p.1 - 100)
        ∧ (trimSeg s).length =
            min s.length (((p :: rest).getLastD (0, 0)).2 + 100) - (p.1 - 100)
        ∧ (trimSeg s).length ≤ s.length := by
  constructor
  · intro h
    unfold trimSeg
    rw [h]
  · intro p rest h
    have key : trimSeg s =
        pySliceNat s (p.1 - 100) (min s.length (((p :: rest).getLastD (0, 0)).2 + 100)) := by
      unfold trimSeg
      rw [h]
    refine ⟨by rw [key]; rfl, ?_, ?_⟩
    · rw [key, length_pySliceNat]
      omega
    · rw [key, length_pySliceNat]
      omega

/-- C5 witness: the theorem applied to a single 0 dBFS frame, whose lone
non-silent span is `(0, 1)`; the guarded clip clamps to the whole waveform. -/
theorem claim_C5_witness : trimSeg [some 0] = [some 0] := by
  have h := (claim_C5 [some 0]).2 (0, 1) [] (by decide)
  rw [h.1]
  rfl

/-! ## Segmenter claim C4 -/

theorem adjustGo_of_chain :
    ∀ (rest : List (Int × Int)) (a : Int × Int),
      List.Chain (fun x y => x.2 ≤ y.1) a rest → adjustGo a rest = a :: rest
  | [], a, _ => rfl
  | b :: rest, a, h => by
    cases h with
    | cons hab hchain =>
      unfold adjustGo
      rw [if_neg (not_lt.mpr hab)]
      rw [adjustGo_of_chain rest b hchain]

theorem adjustRanges_of_chain (rs : List (Int × Int))
    (h : List.Chain' (fun x y => x.2 ≤ y.1) rs) : adjustRanges rs = rs := by
  cases rs with
  | nil => rfl
  | cons a rest =>
    unfold adjustRanges
    exact adjustGo_of_chain rest a h

/-- C4 corrected, general part: the Segmenter produces exactly one padded
chunk per detected non-silent span, the spans are chronological (separated by
at least the 1000 ms silence window), and each chunk is strictly longer than
its raw span — by exactly `2 × pad_ms` plus the neighbouring silence the
splitter's `keep_silence = 150` retains (up to 150 ms per side, clamped to the
waveform bounds), hence by at least `2 × pad_ms`. -/
theorem claim_C4 (s : Audio) (lines : List String) (suffix : String) :
    (cutAudio s lines suffix).length = (detectNonsilent 1000 (-50) s).length
    ∧ List.Chain' (fun a b => a.2 + 1000 ≤ b.1) (detectNonsilent 1000 (-50) s)
    ∧ ∀ (j : Nat) (hj : j < (detectNonsilent 1000 (-50) s).length)
        (hj2 : j < (cutAudio s lines suffix).length),
        ((detectNonsilent 1000 (-50) s).get ⟨j, hj⟩).2 -
            ((detectNonsilent 1000 (-50) s).get ⟨j, hj⟩).1 + 2 * 150 ≤
          (((cutAudio s lines suffix).get ⟨j, hj2⟩).2).length
        ∧ (((cutAudio s lines suffix).get ⟨j, hj2⟩).2).length =
            2 * 150 + (min (((detectNonsilent 1000 (-50) s).get ⟨j, hj⟩).2 + 150) s.length -
              (((detectNonsilent 1000 (-50) s).get ⟨j, hj⟩).1 - 150)) := by
  have hchain : List.Chain' (fun a b => a.2 + 1000 ≤ b.1) (detectNonsilent 1000 (-50) s) :=
    spansGo_chain 1000 _ 0 none (by simp)
  have hbounds : ∀ q ∈ detectNonsilent 1000 (-50) s, q.1 ≤ q.2 ∧ q.2 ≤ s.length := by
    intro q hq
    have h := spansGo_mem_bounds 1000 _ 0 none (by simp) q hq
    rcases h with ⟨_, h2, h3⟩
    rw [runsLen_rle, loudMask_length] at h3
    exact ⟨h2, by omega⟩
  have hadj : adjustRanges ((detectNonsilent 1000 (-50) s).map
      (fun p => ((p.1 : Int) - 150, (p.2 : Int) + 150))) =
      (detectNonsilent 1000 (-50) s).map (fun p => ((p.1 : Int) - 150, (p.2 : Int) + 150)) := by
    apply adjustRanges_of_chain
    rw [List.chain'_map]
    refine List.Chain'.imp ?_ hchain
    intro a b hab
    show (a.2 : Int) + 150 ≤ (b.1 : Int) - 150
    have : (a.2 : Int) + 1000 ≤ (b.1 : Int) := by exact_mod_cast hab
    omega
  have hsplit : splitOnSilence 1000 (-50) 150 s =
      ((detectNonsilent 1000 (-50) s).map
        (fun p => ((p.1 : Int) - 150, (p.2 : Int) + 150))).map
        (fun r => pySliceNat s (max r.1 0).toNat (min r.2 (s.length : Int)).toNat) := by
    unfold splitOnSilence
    simp only [Nat.cast_ofNat]
    rw [hadj]
  have hlen : (cutAudio s lines suffix).length = (detectNonsilent 1000 (-50) s).length := by
    unfold cutAudio
    rw [List.length_map, List.enum_length, hsplit, List.length_map, List.length_map]
  refine ⟨hlen, hchain, ?_⟩
  intro j hj hj2
  have hsp := hbounds ((detectNonsilent 1000 (-50) s).get ⟨j, hj⟩)
    (List.get_mem _ _ _)
  have hj3 : j < (splitOnSilence 1000 (-50) 150 s).length := by
    rw [hsplit, List.length_map, List.length_map]
    exact hj
  have hget : ((cutAudio s lines suffix).get ⟨j, hj2⟩).2 =
      pySilent 150 ++ (splitOnSilence 1000 (-50) 150 s).get ⟨j, hj3⟩ ++ pySilent 150 := by
    unfold cutAudio
    simp only [List.get_eq_getElem, List.getElem_map, List.getElem_enum]
  set sp := (detectNonsilent 1000 (-50) s).get ⟨j, hj⟩ with hspdef
  have hchunk : (splitOnSilence 1000 (-50) 150 s).get ⟨j, hj3⟩ =
      pySliceNat s (max ((sp.1 : Int) - 150) 0).toNat
        (min ((sp.2 : Int) + 150) (s.length : Int)).toNat := by
    simp only [List.get_eq_getElem]
    rw [List.getElem_of_eq hsplit hj3]
    simp only [List.getElem_map]
    rfl
  have haN : (max ((sp.1 : Int) - 150) 0).toNat = sp.1 - 150 := by omega
  have hbN : (min ((sp.2 : Int) + 150) (s.length : Int)).toNat = min (sp.2 + 150) s.length := by
    omega
  have hchunklen : ((splitOnSilence 1000 (-50) 150 s).get ⟨j, hj3⟩).length =
      min (sp.2 + 150) s.length - (sp.1 - 150) := by
    rw [hchunk, haN, hbN, length_pySliceNat]
    omega
  have htotal : (((cutAudio s lines suffix).get ⟨j, hj2⟩).2).length =
      2 * 150 + (min (sp.2 + 150) s.length - (sp.1 - 150)) := by
    rw [hget]
    simp only [List.length_append]
    rw [hchunklen]
    unfold pySilent
    simp only [List.length_replicate]
    omega
  refine ⟨?_, htotal⟩
  rw [htotal]
  omega

/-- C4 counterexample: a 1000 ms silent lead before a 10 ms non-silent span.
The single span is `(1000, 1010)` (length 10), but the produced chunk is
460 ms long — the splitter's `keep_silence = 150` retains 150 ms of the
preceding silence (clamped to nothing on the right) on top of the two
explicit 150 ms pads — not the `10 + 2 × 150 = 310` ms the claim requires. -/
theorem claim_C4_counterexample :
    detectNonsilent 1000 (-50) (pySilent 1000 ++ List.replicate 10 (some 0)) = [(1000, 1010)]
    ∧ ((cutAudio (pySilent 1000 ++ List.replicate 10 (some 0)) [] "S").map
        (fun p => p.2.length)) = [460]
    ∧ (460 : Nat) ≠ (1010 - 1000) + 2 * 150 := by
  refine ⟨by decide, by decide, by decide⟩

/-- C4 witness: the corrected theorem applied to the counterexample input at
chunk index 0. -/
theorem claim_C4_witness :
    (cutAudio (pySilent 1000 ++ List.replicate 10 (some 0)) [] "S").length =
      (detectNonsilent 1000 (-50) (pySilent 1000 ++ List.replicate 10 (some 0))).length
    ∧ (310 : Nat) ≤ 460 := by
  have h := claim_C4 (pySilent 1000 ++ List.replicate 10 (some 0)) [] "S"
  refine ⟨h.1, ?_⟩
  exact (h.2.2 0 (by decide) (by decide)).1

/-! ## Trimmer idempotence (claim C9) -/

theorem getElem_append_mid (A : List Bool) (x : Bool) (B : List Bool) (i : Nat)
    (hi : i = A.length) (h : i < (A ++ x :: B).length) : (A ++ x :: B)[i] = x := by
  subst hi
  rw [List.getElem_append_right (Nat.le_refl A.length)]
  simp

theorem getElem_append_trailing (init : List Bool) (t i : Nat) (hi : init.length + 1 ≤ i)
    (hlt : i < (init ++ true :: List.replicate t false).length) :
    (init ++ true :: List.replicate t false)[i] = false := by
  rw [List.getElem_append_right (by omega : init.length ≤ i)]
  have hgen : ∀ (j : Nat) (hj2 : j < (true :: List.replicate t false).length), 1 ≤ j →
      (true :: List.replicate t false)[j] = false := by
    intro j hj2 hj1
    cases j with
    | zero => omega
    | succ j2 =>
      rw [List.getElem_cons_succ]
      exact List.getElem_replicate _ _
  exact hgen _ _ (by omega)

/-- Unfolding of the Trimmer on a waveform with a loud frame, given both mask
decompositions: the clip runs from the characterised first-span start minus
the guard to the characterised last-span end plus the guard. -/
theorem trimSeg_eq_slice (s : Audio) (l : Nat) (rest : List Bool) (init : List Bool) (t : Nat)
    (h1 : loudMask (-40) s = List.replicate l false ++ true :: rest)
    (h2 : loudMask (-40) s = init ++ true :: List.replicate t false) :
    trimSeg s = pySliceNat s ((if 25 ≤ l then l else 0) - 100)
      (min s.length ((if 25 ≤ t then init.length + 1 else init.length + 1 + t) + 100)) := by
  obtain ⟨e, tl, hhead⟩ := spans_head_of_decomp 25 l rest
  have hdet1 : detectNonsilent 25 (-40) s = ((if 25 ≤ l then l else 0), e) :: tl := by
    unfold detectNonsilent
    rw [h1]
    exact hhead
  have hdet2 : ((detectNonsilent 25 (-40) s).getLast?).map Prod.snd =
      some (if 25 ≤ t then init.length + 1 else init.length + 1 + t) := by
    unfold detectNonsilent
    rw [h2]
    exact spans_last_of_decomp 25 init t
  rw [hdet1] at hdet2
  obtain ⟨lastPair, hlp, hlp2⟩ := Option.map_eq_some'.mp hdet2
  unfold trimSeg
  rw [hdet1]
  show pySliceNat s ((if 25 ≤ l then l else 0) - 100)
      (min s.length (((((if 25 ≤ l then l else 0), e) :: tl).getLastD (0, 0)).2 + 100)) =
    pySliceNat s ((if 25 ≤ l then l else 0) - 100)
      (min s.length ((if 25 ≤ t then init.length + 1 else init.length + 1 + t) + 100))
  have hgld : ((((if 25 ≤ l then l else 0), e) :: tl).getLastD (0, 0)) = lastPair := by
    rw [List.getLastD_eq_getLast?, hlp]
    rfl
  rw [hgld, hlp2]

/-- The Trimmer keeps a waveform with no loud frame unchanged (either no span
is detected, or the degenerate whole-waveform span is detected for inputs
shorter than the 25 ms window and the clip is the identity). -/
theorem trimSeg_of_no_loud (s : Audio) (h : (loudMask (-40) s).any (fun b => b) = false) :
    trimSeg s = s := by
  have hrepl : loudMask (-40) s = List.replicate s.length false := by
    rw [List.eq_replicate_iff]
    refine ⟨loudMask_length _ _, ?_⟩
    intro b hb
    have := (List.any_eq_false.mp h) b hb
    simpa using this
  have hdet : detectNonsilent 25 (-40) s =
      (if s.length = 0 then [] else if 25 ≤ s.length then [] else [(0, s.length)]) := by
    unfold detectNonsilent
    rw [hrepl, spans_replicate_false]
  by_cases h0 : s.length = 0
  · unfold trimSeg
    rw [hdet, if_pos h0]
  · by_cases h25 : 25 ≤ s.length
    · unfold trimSeg
      rw [hdet, if_neg h0, if_pos h25]
    · have hdet2 : detectNonsilent 25 (-40) s = [(0, s.length)] := by
        rw [hdet, if_neg h0, if_neg h25]
      unfold trimSeg
      rw [hdet2]
      show pySliceNat s ((0 : Nat) - 100) (min s.length (s.length + 100)) = s
      have hmin : min s.length (s.length + 100) = s.length := by omega
      have hz : (0 : Nat) - 100 = 0 := by omega
      rw [hmin, hz, pySliceNat_zero_length]

/-- The guard arithmetic behind idempotence: after one clip the leading
silence is at most 100 ms (but still at least 25 ms whenever it had been) and
likewise for the trailing silence, so the second clip moves neither
endpoint. -/
theorem trim_arith (l t L len p q a b : Nat)
    (hl_lt : l < len) (hinit : L + 1 + t = len) (hl_le : l ≤ L)
    (hp : p = if 25 ≤ l then l else 0) (hq : q = if 25 ≤ t then L + 1 else L + 1 + t)
    (ha : a = p - 100) (hb : b = min len (q + 100)) :
    ((if 25 ≤ l - a then l - a else 0) - 100 = 0)
    ∧ min (b - a)
        ((if 25 ≤ b - L - 1 then (L - a) + 1 else (L - a) + 1 + (b - L - 1)) + 100) = b - a := by
  subst hp hq ha hb
  by_cases h1 : 25 ≤ l <;> by_cases h2 : 25 ≤ t <;>
    simp only [h1, h2, if_true, if_false] <;>
    constructor <;> split <;> omega

/-- C9: the Trimmer is idempotent — applying it to its own output changes
nothing, because the guard margins left by the first application (at most
100 ms of silence on each side, and at least the amount that already
qualified) make the second application clip the full span. -/
theorem claim_C9 (s : Audio) : trimSeg (trimSeg s) = trimSeg s := by
  by_cases hany : (loudMask (-40) s).any (fun b => b) = true
  case neg =>
    have hfalse : (loudMask (-40) s).any (fun b => b) = false := by
      cases hc : (loudMask (-40) s).any (fun b => b)
      · rfl
      · exact absurd hc hany
    rw [trimSeg_of_no_loud s hfalse, trimSeg_of_no_loud s hfalse]
  case pos =>
    obtain ⟨rest, h1⟩ := mask_decomp_head _ hany
    obtain ⟨init, h2, hlen2⟩ := mask_decomp_last _ hany
    have hmlen : (loudMask (-40) s).length = s.length := loudMask_length _ _
    have hl_lt : leadSilence (loudMask (-40) s) < s.length := by
      have hc := congrArg List.length h1
      simp at hc
      omega
    have hinitlen : init.length + 1 + tailSilence (loudMask (-40) s) = s.length := by
      rw [← hmlen]
      exact hlen2
    have hidx : leadSilence (loudMask (-40) s) < (loudMask (-40) s).length := by omega
    have hl_le_init : leadSilence (loudMask (-40) s) ≤ init.length := by
      by_contra hgt
      push_neg at hgt
      have e1 : (loudMask (-40) s).get ⟨leadSilence (loudMask (-40) s), hidx⟩ = true := by
        rw [List.get_eq_getElem, List.getElem_of_eq h1 hidx]
        exact getElem_append_mid _ true rest _ (by simp) _
      have e2 : (loudMask (-40) s).get ⟨leadSilence (loudMask (-40) s), hidx⟩ = false := by
        rw [List.get_eq_getElem, List.getElem_of_eq h2 hidx]
        exact getElem_append_trailing init _ _ (by omega) _
      rw [e1] at e2
      exact Bool.noConfusion e2
    set l := leadSilence (loudMask (-40) s) with hldef
    set t := tailSilence (loudMask (-40) s) with htdef
    set p := if 25 ≤ l then l else 0 with hpdef
    set q := if 25 ≤ t then init.length + 1 else init.length + 1 + t with hqdef
    set a := p - 100 with hadef
    set b := min s.length (q + 100) with hbdef
    have htrim : trimSeg s = pySliceNat s a b := trimSeg_eq_slice s l rest init t h1 h2
    have hq_ge : init.length + 1 ≤ q := by
      rw [hqdef]
      split <;> omega
    have hq_le : q ≤ s.length := by
      rw [hqdef]
      split <;> omega
    have hp_le : p ≤ l := by
      rw [hpdef]
      split <;> omega
    have ha_le_l : a ≤ l := by omega
    have hb_ge : init.length + 1 ≤ b := by omega
    have hb_le : b ≤ s.length := by omega
    have hl_lt_b : l < b := by omega
    have ha_le_init : a ≤ init.length := by omega
    have hmask2 : loudMask (-40) (trimSeg s) = pySliceNat (loudMask (-40) s) a b := by
      rw [htrim, loudMask_pySliceNat]
    have hdec1 : loudMask (-40) (trimSeg s) =
        List.replicate (l - a) false ++ true :: List.take (b - l - 1) rest := by
      rw [hmask2, h1, pySliceNat_decomp_head l a b rest ha_le_l hl_lt_b]
    have hdec2 : loudMask (-40) (trimSeg s) =
        init.drop a ++ true :: List.replicate (b - init.length - 1) false := by
      rw [hmask2, h2, pySliceNat_decomp_last init t a b ha_le_init hb_ge (by omega)]
    have htrimlen : (trimSeg s).length = b - a := by
      rw [htrim, length_pySliceNat]
      omega
    have htrim2 := trimSeg_eq_slice (trimSeg s) (l - a) (List.take (b - l - 1) rest)
      (init.drop a) (b - init.length - 1) hdec1 hdec2
    rw [List.length_drop] at htrim2
    obtain ⟨harith1, harith2⟩ := trim_arith l t init.length s.length p q a b hl_lt hinitlen
      hl_le_init hpdef hqdef hadef hbdef
    rw [htrim2, harith1, htrimlen, harith2, ← htrimlen, pySliceNat_zero_length]

end MBPAudio
